import Mathlib

/-!
# tlib `Utf8String` (src/inc/tlib/String.hpp)

A shallow embedding of the byte-level operations of `tlib::Utf8String`:
`size`, `length`, `capacity`, `empty`, `resize`, `shrink` and `copy`, and of
the choice of constructor that the expression `Utf8String(*this)` in `copy`
makes.

The buffer `mData` is a `std::basic_string<char>`: a list of bytes together
with the capacity of its allocation.  What the C++ standard leaves to the
library (which capacity a string gets, what `max_size()` is) is a parameter,
`StdLib`.  A `char`
holds eight bits; whether it is signed is left to the platform, so the
integer promotion in `ch & 0x80` takes the signedness as a parameter and
yields the 32-bit two's complement pattern of the promoted `int`.
Memory is unbounded: no operation fails for lack of it.
-/

namespace tlib

/-! ## Definitions -/

/-- One `char` of the buffer, as its eight-bit pattern `0 .. 255`. -/
abbrev Byte := Fin 256

/-- Exceptions the standard library calls of `String.hpp` can raise. -/
inductive Exn where
  | out_of_range
  | length_error
  deriving DecidableEq, Repr

/-- Integer promotion of a `char` to a 32-bit `int`, as a two's complement bit
pattern: a signed `char` with the top bit set is sign-extended. -/
def promote (signedChar : Bool) (ch : Byte) : Nat :=
  if signedChar && decide (128 ≤ ch.val) then (ch.val + (2 ^ 32 - 256)) % 2 ^ 32 else ch.val

/-- The capacity choices of a standard library implementation. -/
structure StdLib where
  /-- Capacity of a newly built string of `n` characters. -/
  initCap : Nat → Nat
  /-- Capacity after a string of capacity `cap` grows to `n > cap` characters. -/
  growCap : Nat → Nat → Nat
  /-- Capacity after `shrink_to_fit()` on a string of `n` characters and capacity `cap`. -/
  shrinkCap : Nat → Nat → Nat
  /-- The value of `max_size()`: the largest size a string can have. -/
  maxSize : Nat

/-- What the standard asks of the capacity: it holds the characters, and
`shrink_to_fit()` (a non-binding request) does not increase it. -/
def StdLib.Conforming (L : StdLib) : Prop :=
  (∀ n, n ≤ L.initCap n) ∧ (∀ cap n, n ≤ L.growCap cap n) ∧
    (∀ n cap, n ≤ L.shrinkCap n cap) ∧ (∀ n cap, L.initCap 0 ≤ cap → L.shrinkCap n cap ≤ max n cap)

/-- A library with the small-string optimisation: a string never has a
capacity below the 15 characters stored inside the object itself, and
`max_size()` is `2^62 - 1`. -/
def ssoLib : StdLib where
  initCap n := max n 15
  growCap cap n := max n (2 * cap)
  shrinkCap n _ := max n 15
  maxSize := 2 ^ 62 - 1

/-- A `std::basic_string<char>`: its characters and its capacity. -/
structure StdString where
  chars : List Byte
  cap : Nat
  deriving DecidableEq, Repr

namespace StdString

/-- The default constructor `std::basic_string<char>()`. -/
def new (L : StdLib) : StdString :=
  { chars := [], cap := L.initCap 0 }

/-- The member `size()`. -/
def size (str : StdString) : Nat :=
  str.chars.length

/-- The member `capacity()`. -/
def capacity (str : StdString) : Nat :=
  str.cap

/-- The member `empty()`. -/
def empty (str : StdString) : Bool :=
  str.chars.isEmpty

/-- The member `at(i)`: a bounds-checked read. -/
def charAt (str : StdString) (i : Nat) : Except Exn Byte :=
  match str.chars[i]? with
  | some ch => .ok ch
  | none => .error .out_of_range

/-- The member `data()`: the characters followed by the terminating null
character. -/
def data (str : StdString) : List Byte :=
  str.chars ++ [0]

/-- The constructor `std::basic_string<char>(const char *)`: the characters of
the C string up to, and without, the first null character. -/
def ofCStr (L : StdLib) (p : List Byte) : StdString :=
  { chars := p.takeWhile (fun ch => ch != 0),
    cap := L.initCap (p.takeWhile (fun ch => ch != 0)).length }

/-- The member `resize(n, c)`: raise `length_error` when `n` exceeds
`max_size()`; otherwise truncate to `n` characters, or append copies of `c` up
to `n` characters.  On an error the string stays as it was. -/
def resize (L : StdLib) (str : StdString) (n : Nat) (c : Byte) : Except Exn StdString :=
  if L.maxSize < n then
    .error .length_error
  else if n ≤ str.chars.length then
    .ok { chars := str.chars.take n, cap := str.cap }
  else
    .ok { chars := str.chars ++ List.replicate (n - str.chars.length) c,
          cap := if n ≤ str.cap then str.cap else L.growCap str.cap n }

/-- The member `shrink_to_fit()`. -/
def shrink_to_fit (L : StdLib) (str : StdString) : StdString :=
  { chars := str.chars, cap := L.shrinkCap str.chars.length str.cap }

end StdString

/-- The class `Utf8String`: its only member is the buffer `mData`. -/
structure Utf8String where
  mData : StdString
  deriving DecidableEq, Repr

namespace Utf8String

/-- The default constructor `Utf8String()`, line 20. -/
def new (L : StdLib) : Utf8String :=
  { mData := StdString.new L }

/-- A string holding the given bytes, in an allocation of exactly that size. -/
def ofBytes (bytes : List Byte) : Utf8String :=
  { mData := { chars := bytes, cap := bytes.length } }

/-- `Utf8String::size()`, line 89. -/
def size (s : Utf8String) : Nat :=
  s.mData.size

/-- The branch the chain of mask tests of lines 108-123 takes on the lead
byte `c`: the number of bytes the scan advances by, or `none` for the final
`else`. -/
def leadLength (signedChar : Bool) (c : Byte) : Option Nat :=
  let ch := promote signedChar c
  if ch &&& 0x80 = 0 then some 1
  else if ch &&& 0xE0 = 0xC0 then some 2
  else if ch &&& 0xF0 = 0xE0 then some 3
  else if ch &&& 0xF8 = 0xF0 then some 4
  else if ch &&& 0xFC = 0xF8 then some 5
  else if ch &&& 0xFE = 0xFC then some 6
  else none

/-- The loop of `Utf8String::length()`, lines 106-125, from the state
`(i, count)`; `bsize` is the local of line 104. -/
def lengthLoop (signedChar : Bool) (mData : StdString) (bsize i count : Nat) : Except Exn Nat :=
  if i < bsize then
    match mData.charAt i with
    | .error e => .error e
    | .ok c =>
      let ch := promote signedChar c
      if ch &&& 0x80 = 0 then
        lengthLoop signedChar mData bsize (i + 1) (count + 1)
      else if ch &&& 0xE0 = 0xC0 then
        lengthLoop signedChar mData bsize (i + 2) (count + 1)
      else if ch &&& 0xF0 = 0xE0 then
        lengthLoop signedChar mData bsize (i + 3) (count + 1)
      else if ch &&& 0xF8 = 0xF0 then
        lengthLoop signedChar mData bsize (i + 4) (count + 1)
      else if ch &&& 0xFC = 0xF8 then
        lengthLoop signedChar mData bsize (i + 5) (count + 1)
      else if ch &&& 0xFE = 0xFC then
        lengthLoop signedChar mData bsize (i + 6) (count + 1)
      else
        .ok 0
  else
    .ok count
termination_by bsize - i
decreasing_by all_goals omega

/-- `Utf8String::length()`, line 103. -/
def length (signedChar : Bool) (s : Utf8String) : Except Exn Nat :=
  lengthLoop signedChar s.mData s.mData.size 0 0

/-- `Utf8String::capacity()`, line 137. -/
def capacity (s : Utf8String) : Nat :=
  s.mData.capacity

/-- `Utf8String::empty()`, line 186. -/
def empty (s : Utf8String) : Bool :=
  s.mData.empty

/-- `Utf8String::resize(size_t)`, line 197: the string after the call, or the
exception `mData.resize` raised. -/
def resize (L : StdLib) (s : Utf8String) (size : Nat) : Except Exn Utf8String :=
  match s.mData.resize L size 0 with
  | .ok m => .ok { mData := m }
  | .error e => .error e

/-- `Utf8String::shrink()`, line 237. -/
def shrink (L : StdLib) (s : Utf8String) : Utf8String :=
  { mData := s.mData.shrink_to_fit L }

/-- The body of the copying constructor `Utf8String(const Utf8String<Alloc> &)`,
lines 56-58: `mData` is built from the C string `source.mData.data()`. -/
def ofUtf8String (L : StdLib) (source : Utf8String) : Utf8String :=
  { mData := StdString.ofCStr L source.mData.data }

/-- The constructors of `Utf8String<Allocator>`: the four the class declares,
and the copy constructor the language declares for it. -/
inductive Ctor where
  /-- `Utf8String()`, line 20. -/
  | dflt
  /-- `Utf8String(Utf8String<Allocator> &&)`, line 34. -/
  | move
  /-- `Utf8String(const char *, std::locale)`, line 41. -/
  | cstr
  /-- `template <typename Alloc> Utf8String(const Utf8String<Alloc> &)`, line 56. -/
  | convert
  /-- `Utf8String(const Utf8String<Allocator> &)`, implicitly declared. -/
  | implicitCopy
  deriving DecidableEq, Repr

/-- The constructors the class body declares. -/
def declaredCtors : List Ctor :=
  [.dflt, .move, .cstr, .convert]

/-- A constructor that is defined as deleted: the implicitly declared copy
constructor is, when the class declares a move constructor. -/
def Ctor.deleted : Ctor → Bool
  | .implicitCopy => declaredCtors.contains .move
  | _ => false

/-- A constructor that is a template. -/
def Ctor.isTemplate : Ctor → Bool
  | .convert => true
  | _ => false

/-- A constructor that can be called with one argument which is a const
lvalue of the class's own type, as `*this` is in a const member: `dflt` takes
no argument, the rvalue reference of `move` does not bind to an lvalue, a
string does not convert to `const char *`; `convert` (with `Alloc` deduced as
`Allocator`) and `implicitCopy` both bind their reference directly. -/
def Ctor.takesConstLvalue : Ctor → Bool
  | .convert => true
  | .implicitCopy => true
  | _ => false

/-- Overload resolution for `Utf8String(*this)`: among the viable
constructors, whose conversions rank the same, a constructor that is not a
template is preferred to a template specialisation.  Deleted constructors take
part. -/
def selectCtor : Option Ctor :=
  let viable : List Ctor := (declaredCtors ++ [Ctor.implicitCopy]).filter Ctor.takesConstLvalue
  match viable.filter (fun (c : Ctor) => !c.isTemplate) with
  | c :: _ => some c
  | [] => viable.head?

/-- The reasons a program is ill-formed at a constructor call. -/
inductive IllFormed where
  | deleted_function
  | no_matching_function
  deriving DecidableEq, Repr

/-- The expression `Utf8String(*this)` of line 246: the string the selected
constructor builds, or the reason the expression is ill-formed. -/
def construct (L : StdLib) (source : Utf8String) : Except IllFormed Utf8String :=
  match selectCtor with
  | none => .error .no_matching_function
  | some c =>
    if c.deleted then .error .deleted_function
    else
      match c with
      | .convert => .ok (ofUtf8String L source)
      | .implicitCopy => .ok source
      | _ => .error .no_matching_function

/-- `Utf8String::copy()`, line 245. -/
def copy (L : StdLib) (s : Utf8String) : Except IllFormed Utf8String :=
  construct L s

end Utf8String

/-! ### Auxiliary definitions for the proofs -/

/-- The sequence length a lead byte announces, by value range; `none` for a
byte that cannot lead a sequence. -/
def seqLen (ch : Byte) : Option Nat :=
  if ch.val < 0x80 then some 1
  else if ch.val < 0xC0 then none
  else if ch.val < 0xE0 then some 2
  else if ch.val < 0xF0 then some 3
  else if ch.val < 0xF8 then some 4
  else if ch.val < 0xFC then some 5
  else if ch.val < 0xFE then some 6
  else none

/-- The scan of `length()` over the bytes that remain: `skip` bytes are still
to be passed over before the next lead byte, `count` sequences were counted. -/
def scan : Nat → List Byte → Nat → Nat
  | _, [], count => count
  | skip + 1, _ :: rest, count => scan skip rest count
  | 0, c :: rest, count =>
    match seqLen c with
    | some k => scan (k - 1) rest (count + 1)
    | none => 0

/-! ### Well-formed UTF-8, in the words of the specification -/

/-- A continuation byte `10xxxxxx`. -/
def isContinuation (c : Byte) : Bool :=
  c.val &&& 0xC0 == 0x80

/-- The number of continuation bytes that follow a lead byte: 0, 1, 2 or 3
after `0xxxxxxx`, `110xxxxx`, `1110xxxx` or `11110xxx`. -/
def continuationCount (c : Byte) : Option Nat :=
  if c.val &&& 0x80 = 0x00 then some 0
  else if c.val &&& 0xE0 = 0xC0 then some 1
  else if c.val &&& 0xF0 = 0xE0 then some 2
  else if c.val &&& 0xF8 = 0xF0 then some 3
  else none

/-- One encoded sequence: a lead byte followed by exactly the continuation
bytes it calls for. -/
def isSequence : List Byte → Bool
  | [] => false
  | lead :: conts => continuationCount lead == some conts.length && conts.all isContinuation

/-- A well-formed UTF-8 buffer: a concatenation of sequences. -/
def WellFormed (buf : List Byte) : Prop :=
  ∃ seqs : List (List Byte), (∀ s ∈ seqs, isSequence s = true) ∧ seqs.flatten = buf

/-! ### Complete sequences and C strings -/

/-- One complete sequence: a valid lead byte announcing `k` bytes, followed by
exactly `k - 1` bytes of any value. -/
def isCompleteSeq (signedChar : Bool) : List Byte → Bool
  | [] => false
  | lead :: rest => Utf8String.leadLength signedChar lead == some (rest.length + 1)

/-- A buffer that is a concatenation of complete sequences. -/
def Complete (signedChar : Bool) (buf : List Byte) : Prop :=
  ∃ seqs : List (List Byte), (∀ q ∈ seqs, isCompleteSeq signedChar q = true) ∧ seqs.flatten = buf

/-- The value of a `char` promoted to `int` when `char` is signed: the
eight-bit pattern read in two's complement. -/
def signExtend (ch : Byte) : Int :=
  if 128 ≤ ch.val then (ch.val : Int) - 256 else (ch.val : Int)

/-! ## Lemmas -/

set_option maxRecDepth 100000 in
theorem leadLength_eq_seqLen : ∀ (signedChar : Bool) (c : Byte),
    Utf8String.leadLength signedChar c = seqLen c := by
  decide

theorem seqLen_pos {c : Byte} {k : Nat} (h : seqLen c = some k) : 1 ≤ k := by
  unfold seqLen at h
  split_ifs at h <;> simp at h <;> omega

theorem lengthLoop_done (sc : Bool) (mData : StdString) (bsize i count : Nat)
    (h : bsize ≤ i) : Utf8String.lengthLoop sc mData bsize i count = .ok count := by
  rw [Utf8String.lengthLoop]
  simp [Nat.not_lt.mpr h]

theorem lengthLoop_step (sc : Bool) (mData : StdString) (bsize i count : Nat) (c : Byte)
    (hi : i < bsize) (hc : mData.chars[i]? = some c) :
    Utf8String.lengthLoop sc mData bsize i count =
      match seqLen c with
      | some k => Utf8String.lengthLoop sc mData bsize (i + k) (count + 1)
      | none => .ok 0 := by
  rw [Utf8String.lengthLoop, ← leadLength_eq_seqLen sc c, Utf8String.leadLength]
  simp only [hi, if_true, StdString.charAt, hc]
  split_ifs <;> rfl

theorem scan_skip (skip : Nat) (l : List Byte) (count : Nat) :
    scan skip l count = scan 0 (l.drop skip) count := by
  induction skip generalizing l with
  | zero => simp
  | succ n ih =>
    cases l with
    | nil => simp [scan]
    | cons c rest => simp [scan, ih rest]

theorem lengthLoop_eq_scan (sc : Bool) (mData : StdString) (i count : Nat) :
    Utf8String.lengthLoop sc mData mData.chars.length i count
      = .ok (scan 0 (mData.chars.drop i) count) := by
  generalize h : mData.chars.length - i = n
  induction n using Nat.strong_induction_on generalizing i count with
  | _ n ih =>
    by_cases hi : i < mData.chars.length
    · have hc : mData.chars[i]? = some mData.chars[i] := List.getElem?_eq_getElem hi
      rw [lengthLoop_step sc mData _ i count _ hi hc, List.drop_eq_getElem_cons hi]
      cases hk : seqLen mData.chars[i] with
      | none => simp [scan, hk]
      | some k =>
        have hpos := seqLen_pos hk
        simp only [scan, hk]
        rw [ih (mData.chars.length - (i + k)) (by omega) (i + k) (count + 1) rfl,
          scan_skip (k - 1), List.drop_drop]
        congr 3
        omega
    · rw [lengthLoop_done sc mData _ i count (by omega), List.drop_eq_nil_of_le (by omega)]
      simp [scan]

/-- The loop of `length()` always returns, and returns what `scan` computes. -/
theorem length_eq_scan (sc : Bool) (s : Utf8String) :
    s.length sc = .ok (scan 0 s.mData.chars 0) := by
  simp [Utf8String.length, StdString.size, lengthLoop_eq_scan]

theorem scan_le (skip : Nat) (l : List Byte) (count : Nat) :
    scan skip l count ≤ count + (l.length - skip) := by
  induction l generalizing skip count with
  | nil => simp [scan]
  | cons c rest ih =>
    cases skip with
    | zero =>
      cases hk : seqLen c with
      | none => simp [scan, hk]
      | some k =>
        have := ih (k - 1) (count + 1)
        simp only [scan, hk, List.length_cons]
        omega
    | succ n =>
      have := ih n count
      simp only [scan, List.length_cons]
      omega

theorem seqLen_isSome_iff (c : Byte) :
    (seqLen c).isSome = true ↔ c.val ≤ 0x7F ∨ (0xC0 ≤ c.val ∧ c.val ≤ 0xFD) := by
  unfold seqLen
  split_ifs <;> simp <;> omega

theorem seqLen_eq_one_iff (c : Byte) : seqLen c = some 1 ↔ c.val ≤ 0x7F := by
  unfold seqLen
  split_ifs <;> simp <;> omega

set_option maxRecDepth 100000 in
theorem continuationCount_spec : ∀ c : Byte, (continuationCount c).isSome = true →
    (seqLen c = (continuationCount c).map (· + 1) ∧ isContinuation c = false) := by
  decide

theorem isSequence_cons {lead : Byte} {conts : List Byte} (h : isSequence (lead :: conts) = true) :
    seqLen lead = some (conts.length + 1) ∧ isContinuation lead = false
      ∧ ∀ c ∈ conts, isContinuation c = true := by
  simp only [isSequence, Bool.and_eq_true, beq_iff_eq, List.all_eq_true] at h
  have hs := continuationCount_spec lead (by simp [h.1])
  rw [h.1] at hs
  exact ⟨by simpa using hs.1, hs.2, h.2⟩

theorem scan_flatten (seqs : List (List Byte)) (h : ∀ s ∈ seqs, isSequence s = true)
    (count : Nat) :
    scan 0 seqs.flatten count = count + seqs.flatten.countP (fun c => !isContinuation c) := by
  induction seqs generalizing count with
  | nil => simp [scan]
  | cons s ss ih =>
    have hss : ∀ s ∈ ss, isSequence s = true := fun x hx => h x (List.mem_cons_of_mem _ hx)
    cases s with
    | nil => simpa [isSequence] using h [] (List.mem_cons_self _ _)
    | cons lead conts =>
      obtain ⟨hk, hl, hc⟩ := isSequence_cons (h _ (List.mem_cons_self _ _))
      have h1 : scan 0 (lead :: (conts ++ ss.flatten)) count
          = scan conts.length (conts ++ ss.flatten) (count + 1) := by
        simp only [scan, hk, Nat.add_sub_cancel]
      have h2 : scan conts.length (conts ++ ss.flatten) (count + 1)
          = scan 0 ss.flatten (count + 1) := by
        rw [scan_skip, List.drop_left]
      have h3 : List.countP (fun c => !isContinuation c) conts = 0 := by
        rw [List.countP_eq_zero]
        intro c hmem
        simp [hc c hmem]
      have h4 : ((lead :: conts) :: ss).flatten = lead :: (conts ++ ss.flatten) := by simp
      rw [h4, h1, h2, ih hss, List.countP_cons, List.countP_append, h3]
      simp [hl]
      omega

theorem scan_eq_length_imp (l : List Byte) (count : Nat)
    (h : scan 0 l count = count + l.length) :
    l = [] ∨ ∃ pre last, l = pre ++ [last] ∧ (∀ b ∈ pre, b.val ≤ 0x7F)
      ∧ (last.val ≤ 0x7F ∨ (0xC0 ≤ last.val ∧ last.val ≤ 0xFD)) := by
  induction l generalizing count with
  | nil => exact Or.inl rfl
  | cons c rest ih =>
    right
    cases hk : seqLen c with
    | none =>
      simp only [scan, hk, List.length_cons] at h
      omega
    | some k =>
      simp only [scan, hk, List.length_cons] at h
      have hb := scan_le (k - 1) rest (count + 1)
      have hpos := seqLen_pos hk
      have hvalid := (seqLen_isSome_iff c).mp (by simp [hk])
      by_cases hr : rest = []
      · exact ⟨[], c, by simp [hr], by simp, hvalid⟩
      · have hlen : 0 < rest.length := List.length_pos.mpr hr
        have hk1 : k = 1 := by omega
        subst hk1
        have hc := (seqLen_eq_one_iff c).mp hk
        have h0 : scan 0 rest (count + 1) = count + (rest.length + 1) := h
        rcases ih (count + 1) (by omega) with h0 | ⟨pre, last, hl, hpre, hlast⟩
        · exact absurd h0 hr
        · refine ⟨c :: pre, last, by simp [hl], ?_, hlast⟩
          intro b hbm
          rcases List.mem_cons.mp hbm with rfl | hbm
          · exact hc
          · exact hpre b hbm

theorem isCompleteSeq_cons {sc : Bool} {lead : Byte} {rest : List Byte}
    (h : isCompleteSeq sc (lead :: rest) = true) : seqLen lead = some (rest.length + 1) := by
  simp only [isCompleteSeq, beq_iff_eq] at h
  rw [← leadLength_eq_seqLen sc lead, h]

theorem scan_complete (sc : Bool) (seqs : List (List Byte))
    (h : ∀ q ∈ seqs, isCompleteSeq sc q = true) (b : List Byte) (count : Nat) :
    scan 0 (seqs.flatten ++ b) count = scan 0 b (count + seqs.length) := by
  induction seqs generalizing count with
  | nil => simp
  | cons q qs ih =>
    have hqs : ∀ q ∈ qs, isCompleteSeq sc q = true := fun x hx => h x (List.mem_cons_of_mem _ hx)
    cases q with
    | nil => simpa [isCompleteSeq] using h [] (List.mem_cons_self _ _)
    | cons lead rest =>
      have hk := isCompleteSeq_cons (h _ (List.mem_cons_self _ _))
      have h0 : ((lead :: rest) :: qs).flatten ++ b = lead :: (rest ++ (qs.flatten ++ b)) := by
        simp
      have h1 : scan 0 (lead :: (rest ++ (qs.flatten ++ b))) count
          = scan rest.length (rest ++ (qs.flatten ++ b)) (count + 1) := by
        simp only [scan, hk, Nat.add_sub_cancel]
      have h2 : scan rest.length (rest ++ (qs.flatten ++ b)) (count + 1)
          = scan 0 (qs.flatten ++ b) (count + 1) := by
        rw [scan_skip, List.drop_left]
      rw [h0, h1, h2, ih hqs, List.length_cons]
      congr 1
      omega

theorem scan_zero_or_add (skip : Nat) (l : List Byte) :
    (∀ count, scan skip l count = 0) ∨ (∀ count, scan skip l count = count + scan skip l 0) := by
  induction l generalizing skip with
  | nil => right; intro count; simp [scan]
  | cons c rest ih =>
    cases skip with
    | succ n =>
      rcases ih n with h | h
      · left; intro count; simpa only [scan] using h count
      · right; intro count; simpa only [scan] using h count
    | zero =>
      cases hk : seqLen c with
      | none => left; intro count; simp only [scan, hk]
      | some k =>
        rcases ih (k - 1) with h | h
        · left; intro count; simp only [scan, hk]; exact h (count + 1)
        · right
          intro count
          simp only [scan, hk]
          rw [h (count + 1), h (0 + 1)]
          omega

theorem scan_add_of_pos (l : List Byte) (h : 0 < scan 0 l 0) (count : Nat) :
    scan 0 l count = count + scan 0 l 0 := by
  rcases scan_zero_or_add 0 l with h0 | h0
  · rw [h0 0] at h
    exact absurd h (Nat.lt_irrefl 0)
  · exact h0 count

theorem scan_zero_of_zero (l : List Byte) (hne : l ≠ []) (h : scan 0 l 0 = 0) (count : Nat) :
    scan 0 l count = 0 := by
  cases l with
  | nil => exact absurd rfl hne
  | cons c rest =>
    cases hk : seqLen c with
    | none => simp only [scan, hk]
    | some k =>
      simp only [scan, hk] at h ⊢
      rcases scan_zero_or_add (k - 1) rest with h0 | h0
      · exact h0 (count + 1)
      · rw [h0 (0 + 1)] at h
        omega

/-- C1 (the code departs from it): on the one-byte buffer `[0x80]`, and on
other buffers whose scan reaches an invalid lead byte, `length()` reports no
error and returns the count 0. -/
theorem length_invalid_lead_returns_zero :
    (Utf8String.ofBytes [0x80]).length false = .ok 0
      ∧ (Utf8String.ofBytes [0x80]).length true = .ok 0
      ∧ (Utf8String.ofBytes [0x41, 0xFE]).length false = .ok 0
      ∧ (Utf8String.ofBytes [0xC3, 0xA9, 0xFF, 0x41]).length true = .ok 0 := by
  refine ⟨?_, ?_, ?_, ?_⟩ <;> rw [length_eq_scan] <;> rfl

/-- C3: for every string, well-formed or not, `length()` returns a count, and
that count is at most `size()`. -/
theorem length_le_size (signedChar : Bool) (s : Utf8String) :
    ∃ n, s.length signedChar = .ok n ∧ n ≤ s.size := by
  refine ⟨scan 0 s.mData.chars 0, length_eq_scan signedChar s, ?_⟩
  have := scan_le 0 s.mData.chars 0
  simpa [Utf8String.size, StdString.size] using this

/-- C4 (the code departs from it): the string `[0x80]` is not `empty()`, yet
its `length()` is 0. -/
theorem empty_false_and_length_zero :
    (Utf8String.ofBytes [0x80]).empty = false
      ∧ (Utf8String.ofBytes [0x80]).length false = .ok 0
      ∧ (Utf8String.ofBytes [0x80]).length true = .ok 0 := by
  refine ⟨rfl, ?_, ?_⟩ <;> rw [length_eq_scan] <;> rfl

/-- C9: `empty()` returns true exactly when `size()` is 0. -/
theorem empty_iff_size_eq_zero (s : Utf8String) : s.empty = true ↔ s.size = 0 := by
  simp [Utf8String.empty, Utf8String.size, StdString.empty, StdString.size,
    List.isEmpty_iff, List.length_eq_zero]

/-- C8 (the code departs from it): with a library that keeps short strings
inside the object, a newly built empty string has capacity 15 and size 0
after `shrink()`. -/
theorem shrink_capacity_ne_size :
    ssoLib.Conforming
      ∧ (Utf8String.shrink ssoLib (Utf8String.new ssoLib)).capacity = 15
      ∧ (Utf8String.shrink ssoLib (Utf8String.new ssoLib)).size = 0 := by
  refine ⟨⟨?_, ?_, ?_, ?_⟩, rfl, rfl⟩
  · intro n; simp [ssoLib]
  · intro cap n; simp [ssoLib]
  · intro n cap; simp [ssoLib]
  · intro n cap h
    simp only [ssoLib] at h ⊢
    omega

/-- C10: the bytes a lead byte makes the scan skip do not matter.  When the
lead byte announces `k` bytes, `length()` of lead, `k - 1` bytes and a tail is
the loop resumed at index `k` with count 1, and is the same for any other
`k - 1` bytes in their place. -/
theorem length_ignores_skipped_bytes (signedChar : Bool) (lead : Byte) (k : Nat)
    (p q t : List Byte) (cap cap' : Nat)
    (hk : Utf8String.leadLength signedChar lead = some k)
    (hp : p.length = k - 1) (hq : q.length = k - 1) :
    Utf8String.length signedChar ⟨⟨lead :: p ++ t, cap⟩⟩
        = Utf8String.length signedChar ⟨⟨lead :: q ++ t, cap'⟩⟩
      ∧ Utf8String.length signedChar ⟨⟨lead :: p ++ t, cap⟩⟩
        = Utf8String.lengthLoop signedChar ⟨lead :: p ++ t, cap⟩ (lead :: p ++ t).length k 1 := by
  rw [leadLength_eq_seqLen] at hk
  have hpos := seqLen_pos hk
  have key : ∀ (r : List Byte) (c : Nat), r.length = k - 1 →
      Utf8String.length signedChar ⟨⟨lead :: r ++ t, c⟩⟩ = .ok (scan 0 t 1) := by
    intro r c hr
    rw [length_eq_scan]
    have h1 : scan 0 (lead :: (r ++ t)) 0 = scan (k - 1) (r ++ t) 1 := by
      simp only [scan, hk]
    have h2 : scan (k - 1) (r ++ t) 1 = scan 0 t 1 := by
      rw [scan_skip, ← hr, List.drop_left]
    exact congrArg Except.ok (h1.trans h2)
  refine ⟨by rw [key p cap hp, key q cap' hq], ?_⟩
  rw [key p cap hp, lengthLoop_eq_scan]
  have : List.drop k (lead :: p ++ t) = t := by
    obtain ⟨j, rfl⟩ : ∃ j, k = j + 1 := ⟨k - 1, by omega⟩
    simp only [List.cons_append, List.drop_succ_cons]
    rw [show j = p.length by omega, List.drop_left]
  rw [this]

/-- C2: on a well-formed UTF-8 buffer `length()` returns the number of bytes
that are not continuation bytes, and `size()` the number of bytes. -/
theorem length_wellFormed (signedChar : Bool) (s : Utf8String)
    (h : WellFormed s.mData.chars) :
    s.length signedChar = .ok (s.mData.chars.countP (fun c => !isContinuation c))
      ∧ s.size = s.mData.chars.length := by
  obtain ⟨seqs, hseqs, hflat⟩ := h
  refine ⟨?_, rfl⟩
  rw [length_eq_scan, ← hflat, scan_flatten seqs hseqs 0]
  simp

/-- C2 at the strings of the tests: "Hello World!" has length 12 and size 12,
and `e` followed by U+0333 has length 2 and size 3. -/
theorem length_wellFormed_witness :
    (WellFormed [0x48, 0x65, 0x6C, 0x6C, 0x6F, 0x20, 0x57, 0x6F, 0x72, 0x6C, 0x64, 0x21]
      ∧ (Utf8String.ofBytes
            [0x48, 0x65, 0x6C, 0x6C, 0x6F, 0x20, 0x57, 0x6F, 0x72, 0x6C, 0x64, 0x21]).length true
          = .ok 12
      ∧ (Utf8String.ofBytes
            [0x48, 0x65, 0x6C, 0x6C, 0x6F, 0x20, 0x57, 0x6F, 0x72, 0x6C, 0x64, 0x21]).size = 12)
    ∧ (WellFormed [0x65, 0xCC, 0xB3]
      ∧ (Utf8String.ofBytes [0x65, 0xCC, 0xB3]).length false = .ok 2
      ∧ (Utf8String.ofBytes [0x65, 0xCC, 0xB3]).size = 3) :=
  have hello : WellFormed
      [0x48, 0x65, 0x6C, 0x6C, 0x6F, 0x20, 0x57, 0x6F, 0x72, 0x6C, 0x64, 0x21] :=
    ⟨[[0x48], [0x65], [0x6C], [0x6C], [0x6F], [0x20], [0x57], [0x6F], [0x72], [0x6C], [0x64],
      [0x21]], by decide, rfl⟩
  have comb : WellFormed [0x65, 0xCC, 0xB3] := ⟨[[0x65], [0xCC, 0xB3]], by decide, rfl⟩
  ⟨⟨hello, length_wellFormed true (Utf8String.ofBytes _) hello⟩,
    ⟨comb, length_wellFormed false (Utf8String.ofBytes _) comb⟩⟩

/-- C7 as stated fails: the one-byte string `C2` has `length()` 1, equal to its
`size()`, and its byte is not in `0x00..0x7F`. -/
theorem length_eq_size_non_ascii :
    (Utf8String.ofBytes [0xC2]).length false = .ok (Utf8String.ofBytes [0xC2]).size
      ∧ (Utf8String.ofBytes [0xC2]).length true = .ok (Utf8String.ofBytes [0xC2]).size
      ∧ ¬ (∀ c ∈ (Utf8String.ofBytes [0xC2]).mData.chars, c.val ≤ 0x7F) := by
  refine ⟨by rw [length_eq_scan]; rfl, by rw [length_eq_scan]; rfl, ?_⟩
  intro h
  exact absurd (h 0xC2 (List.mem_singleton.mpr rfl)) (by decide)

/-- C7, amended: `length()` equals `size()` only if every byte before the last
is in `0x00..0x7F` and the last byte is in `0x00..0x7F` or is a lead byte
`0xC0..0xFD` of a sequence the end of the buffer cuts short. -/
theorem length_eq_size_imp (signedChar : Bool) (s : Utf8String)
    (h : s.length signedChar = .ok s.size) :
    s.mData.chars = [] ∨ ∃ pre last, s.mData.chars = pre ++ [last]
      ∧ (∀ b ∈ pre, b.val ≤ 0x7F)
      ∧ (last.val ≤ 0x7F ∨ (0xC0 ≤ last.val ∧ last.val ≤ 0xFD)) := by
  rw [length_eq_scan] at h
  have h' : scan 0 s.mData.chars 0 = 0 + s.mData.chars.length := by
    simpa [Utf8String.size, StdString.size] using h
  exact scan_eq_length_imp s.mData.chars 0 h'

/-- C7, amended, at the string `41 C2`, whose `length()` and `size()` are 2. -/
theorem length_eq_size_imp_witness :
    (Utf8String.ofBytes [0x41, 0xC2]).length true = .ok (Utf8String.ofBytes [0x41, 0xC2]).size
      ∧ ((Utf8String.ofBytes [0x41, 0xC2]).mData.chars = []
        ∨ ∃ pre last, (Utf8String.ofBytes [0x41, 0xC2]).mData.chars = pre ++ [last]
          ∧ (∀ b ∈ pre, b.val ≤ 0x7F)
          ∧ (last.val ≤ 0x7F ∨ (0xC0 ≤ last.val ∧ last.val ≤ 0xFD))) :=
  have h : (Utf8String.ofBytes [0x41, 0xC2]).length true
      = .ok (Utf8String.ofBytes [0x41, 0xC2]).size := by
    rw [length_eq_scan]; rfl
  ⟨h, length_eq_size_imp true (Utf8String.ofBytes [0x41, 0xC2]) h⟩

/-- C10 at the lead byte `E2` (three bytes): `E2 82 AC 41` and `E2 00 FF 41`
have the same `length()`, which is 2. -/
theorem length_ignores_skipped_bytes_witness :
    Utf8String.length true ⟨⟨[0xE2, 0x82, 0xAC, 0x41], 4⟩⟩
        = Utf8String.length true ⟨⟨[0xE2, 0x00, 0xFF, 0x41], 4⟩⟩
      ∧ Utf8String.length true ⟨⟨[0xE2, 0x00, 0xFF, 0x41], 4⟩⟩ = .ok 2 :=
  ⟨(length_ignores_skipped_bytes true 0xE2 3 [0x82, 0xAC] [0x00, 0xFF] [0x41] 4 4
      rfl rfl rfl).1,
    by rw [length_eq_scan]; rfl⟩

/-- C11: the 5- and 6-byte forms are taken as sequences.  A lead byte in
`0xF8..0xFB` announces 5 bytes and with exactly 4 more bytes has `length()` 1;
a lead byte in `0xFC..0xFD` announces 6 bytes and with exactly 5 more bytes
has `length()` 1; a buffer that starts with `0xFE` or `0xFF` has `length()`
0. -/
theorem length_legacy_forms (signedChar : Bool) (lead : Byte) (rest : List Byte) (cap : Nat) :
    (0xF8 ≤ lead.val ∧ lead.val ≤ 0xFB → rest.length = 4 →
        Utf8String.leadLength signedChar lead = some 5
          ∧ Utf8String.length signedChar ⟨⟨lead :: rest, cap⟩⟩ = .ok 1)
      ∧ (0xFC ≤ lead.val ∧ lead.val ≤ 0xFD → rest.length = 5 →
        Utf8String.leadLength signedChar lead = some 6
          ∧ Utf8String.length signedChar ⟨⟨lead :: rest, cap⟩⟩ = .ok 1)
      ∧ (0xFE ≤ lead.val →
        Utf8String.leadLength signedChar lead = none
          ∧ Utf8String.length signedChar ⟨⟨lead :: rest, cap⟩⟩ = .ok 0) := by
  have hlead := lead.isLt
  refine ⟨?_, ?_, ?_⟩
  · intro hr hlen
    have hk : seqLen lead = some 5 := by
      unfold seqLen
      split_ifs <;> first | rfl | omega
    refine ⟨by rw [leadLength_eq_seqLen, hk], ?_⟩
    rw [length_eq_scan]
    have h1 : scan 0 (lead :: rest) 0 = scan 4 rest 1 := by simp only [scan, hk]
    have h2 : scan 4 rest 1 = 1 := by
      rw [scan_skip, List.drop_eq_nil_of_le (by omega)]
      rfl
    exact congrArg Except.ok (h1.trans h2)
  · intro hr hlen
    have hk : seqLen lead = some 6 := by
      unfold seqLen
      split_ifs <;> first | rfl | omega
    refine ⟨by rw [leadLength_eq_seqLen, hk], ?_⟩
    rw [length_eq_scan]
    have h1 : scan 0 (lead :: rest) 0 = scan 5 rest 1 := by simp only [scan, hk]
    have h2 : scan 5 rest 1 = 1 := by
      rw [scan_skip, List.drop_eq_nil_of_le (by omega)]
      rfl
    exact congrArg Except.ok (h1.trans h2)
  · intro hr
    have hk : seqLen lead = none := by
      unfold seqLen
      split_ifs <;> first | rfl | omega
    refine ⟨by rw [leadLength_eq_seqLen, hk], ?_⟩
    rw [length_eq_scan]
    have h1 : scan 0 (lead :: rest) 0 = 0 := by simp only [scan, hk]
    exact congrArg Except.ok h1

/-- C11 at `F8 80 80 80 80`, at `FD 00 01 02 03 04` and at `FF 41`. -/
theorem length_legacy_forms_witness :
    Utf8String.length true ⟨⟨[0xF8, 0x80, 0x80, 0x80, 0x80], 5⟩⟩ = .ok 1
      ∧ Utf8String.length false ⟨⟨[0xFD, 0x00, 0x01, 0x02, 0x03, 0x04], 6⟩⟩ = .ok 1
      ∧ Utf8String.length true ⟨⟨[0xFF, 0x41], 2⟩⟩ = .ok 0 :=
  ⟨((length_legacy_forms true 0xF8 [0x80, 0x80, 0x80, 0x80] 5).1
      ⟨by decide, by decide⟩ rfl).2,
    ((length_legacy_forms false 0xFD [0x00, 0x01, 0x02, 0x03, 0x04] 6).2.1
      ⟨by decide, by decide⟩ rfl).2,
    ((length_legacy_forms true 0xFF [0x41] 2).2.2 (by decide)).2⟩

set_option maxRecDepth 100000 in
/-- C15: the branch the mask tests select does not depend on the signedness of
`char`.  For every byte, the promoted signed `char` is the 32-bit two's
complement pattern of its sign extension, each of the six masks gives the same
value on the sign-extended and on the zero-extended byte, and so the same
branch is taken. -/
theorem leadLength_signedness : ∀ c : Byte,
    (promote true c : Int) = signExtend c % 2 ^ 32
      ∧ (promote false c : Int) = (c.val : Int)
      ∧ promote true c &&& 0x80 = promote false c &&& 0x80
      ∧ promote true c &&& 0xE0 = promote false c &&& 0xE0
      ∧ promote true c &&& 0xF0 = promote false c &&& 0xF0
      ∧ promote true c &&& 0xF8 = promote false c &&& 0xF8
      ∧ promote true c &&& 0xFC = promote false c &&& 0xFC
      ∧ promote true c &&& 0xFE = promote false c &&& 0xFE
      ∧ Utf8String.leadLength true c = Utf8String.leadLength false c := by
  decide

/-- C12: for every buffer the loop of `length()` ends with a count and raises no
`out_of_range`: `at(i)` succeeds at every index below `size()` (and only
there), which is where the loop reads.  When the last lead byte announces more
bytes than remain after a run of complete sequences, `length()` counts the
cut-short sequence as one more codepoint. -/
theorem length_never_out_of_range (signedChar : Bool) (s : Utf8String) :
    (∃ n, s.length signedChar = .ok n)
      ∧ (∀ i, i < s.size → ∃ c, s.mData.charAt i = .ok c)
      ∧ (∀ i, s.size ≤ i → s.mData.charAt i = .error .out_of_range)
      ∧ (∀ (seqs : List (List Byte)) (lead : Byte) (tail : List Byte) (k : Nat),
          (∀ q ∈ seqs, isCompleteSeq signedChar q = true) →
          s.mData.chars = seqs.flatten ++ lead :: tail →
          Utf8String.leadLength signedChar lead = some k →
          tail.length + 1 < k →
          s.length signedChar = .ok (seqs.length + 1)) := by
  refine ⟨⟨_, length_eq_scan signedChar s⟩, ?_, ?_, ?_⟩
  · intro i hi
    have hi' : i < s.mData.chars.length := hi
    exact ⟨s.mData.chars[i], by simp [StdString.charAt, List.getElem?_eq_getElem hi']⟩
  · intro i hi
    have hi' : s.mData.chars.length ≤ i := hi
    simp [StdString.charAt, List.getElem?_eq_none hi']
  · intro seqs lead tail k hseqs hchars hk hlt
    rw [leadLength_eq_seqLen] at hk
    rw [length_eq_scan, hchars, scan_complete signedChar seqs hseqs]
    have h1 : scan 0 (lead :: tail) (0 + seqs.length) = scan (k - 1) tail (0 + seqs.length + 1) := by
      simp only [scan, hk]
    have h2 : scan (k - 1) tail (0 + seqs.length + 1) = seqs.length + 1 := by
      rw [scan_skip, List.drop_eq_nil_of_le (by omega)]
      simp [scan]
    exact congrArg Except.ok (h1.trans h2)

/-- C12 at the one-byte buffer `C2`, whose `length()` is 1, and at `41 E2 82`,
whose `length()` is 2. -/
theorem length_never_out_of_range_witness :
    (Utf8String.ofBytes [0xC2]).length true = .ok 1
      ∧ (Utf8String.ofBytes [0x41, 0xE2, 0x82]).length false = .ok 2 :=
  ⟨(length_never_out_of_range true (Utf8String.ofBytes [0xC2])).2.2.2
      [] 0xC2 [] 2 (by decide) rfl rfl (by decide),
    (length_never_out_of_range false (Utf8String.ofBytes [0x41, 0xE2, 0x82])).2.2.2
      [[0x41]] 0xE2 [0x82] 3 (by decide) rfl rfl (by decide)⟩

/-- C13: after a buffer `a` of complete sequences, `length()` of `a ++ b` is
`length(a) + length(b)` when `b` is empty or `length(b) > 0`, and is 0 when
`b` is not empty and `length(b)` is 0. -/
theorem length_append_complete (signedChar : Bool) (a b : List Byte) (ca cb cab : Nat)
    (h : Complete signedChar a) :
    ∃ na nb, Utf8String.length signedChar ⟨⟨a, ca⟩⟩ = .ok na
      ∧ Utf8String.length signedChar ⟨⟨b, cb⟩⟩ = .ok nb
      ∧ Utf8String.length signedChar ⟨⟨a ++ b, cab⟩⟩
          = .ok (if b = [] ∨ 0 < nb then na + nb else 0) := by
  obtain ⟨seqs, hseqs, rfl⟩ := h
  refine ⟨scan 0 seqs.flatten 0, scan 0 b 0, length_eq_scan _ _, length_eq_scan _ _, ?_⟩
  rw [length_eq_scan]
  have ha : scan 0 seqs.flatten 0 = seqs.length := by
    have := scan_complete signedChar seqs hseqs [] 0
    simpa [scan] using this
  have hab : scan 0 (seqs.flatten ++ b) 0 = scan 0 b seqs.length := by
    have := scan_complete signedChar seqs hseqs b 0
    simpa using this
  show Except.ok (scan 0 (seqs.flatten ++ b) 0) = _
  rw [hab, ha]
  congr 1
  by_cases hb : b = []
  · subst hb
    simp [scan]
  · by_cases hpos : 0 < scan 0 b 0
    · rw [if_pos (Or.inr hpos)]
      exact scan_add_of_pos b hpos seqs.length
    · have hz : scan 0 b 0 = 0 := by omega
      rw [if_neg (by simp [hb, hz])]
      exact scan_zero_of_zero b hb hz seqs.length

/-- C13 at `a = C3 A9 41`: followed by `E2 82 AC` the count is 2 + 1, followed
by `80` it is 0. -/
theorem length_append_complete_witness :
    Complete true [0xC3, 0xA9, 0x41]
      ∧ (∃ na nb, Utf8String.length true ⟨⟨[0xC3, 0xA9, 0x41], 3⟩⟩ = .ok na
        ∧ Utf8String.length true ⟨⟨[0xE2, 0x82, 0xAC], 3⟩⟩ = .ok nb
        ∧ Utf8String.length true ⟨⟨[0xC3, 0xA9, 0x41] ++ [0xE2, 0x82, 0xAC], 6⟩⟩
            = .ok (if ([0xE2, 0x82, 0xAC] : List Byte) = [] ∨ 0 < nb then na + nb else 0))
      ∧ (∃ na nb, Utf8String.length true ⟨⟨[0xC3, 0xA9, 0x41], 3⟩⟩ = .ok na
        ∧ Utf8String.length true ⟨⟨[0x80], 1⟩⟩ = .ok nb
        ∧ Utf8String.length true ⟨⟨[0xC3, 0xA9, 0x41] ++ [0x80], 4⟩⟩
            = .ok (if ([0x80] : List Byte) = [] ∨ 0 < nb then na + nb else 0)) :=
  have hc : Complete true [0xC3, 0xA9, 0x41] := ⟨[[0xC3, 0xA9], [0x41]], by decide, rfl⟩
  ⟨hc, length_append_complete true _ _ 3 3 6 hc, length_append_complete true _ _ 3 1 4 hc⟩

/-- C5 (the code departs from it): `copy()` returns no string at all.  The
expression `Utf8String(*this)` selects the implicitly declared copy
constructor, which is deleted because the class declares a move constructor,
so the call is ill-formed for the string `41` as for `41 00 42`. -/
theorem copy_is_ill_formed :
    Utf8String.selectCtor = some Utf8String.Ctor.implicitCopy
      ∧ Utf8String.Ctor.deleted Utf8String.Ctor.implicitCopy = true
      ∧ Utf8String.copy ssoLib (Utf8String.ofBytes [0x41]) = .error .deleted_function
      ∧ Utf8String.copy ssoLib (Utf8String.ofBytes [0x41, 0x00, 0x42])
          = .error .deleted_function :=
  ⟨rfl, rfl, rfl, rfl⟩

/-- C6 as stated fails: `resize(2^62)` of the string `41`, in a library whose
`max_size()` is `2^62 - 1`, raises `length_error`, so the size does not become
`2^62` (a value a `size_t` of 64 bits holds). -/
theorem resize_beyond_max_size :
    Utf8String.resize ssoLib (Utf8String.ofBytes [0x41]) (2 ^ 62) = .error .length_error
      ∧ ssoLib.maxSize < 2 ^ 62 ∧ 2 ^ 62 < 2 ^ 64 := by
  refine ⟨?_, by simp [ssoLib], by norm_num⟩
  simp [Utf8String.resize, StdString.resize, ssoLib]

/-- C6, amended: for `n` up to `max_size()`, `resize(n)` succeeds, the size is
then `n`, the first `min n |b|` bytes are those of the old buffer `b`, and
every byte at an index from `|b|` on is `0x00`. -/
theorem resize_spec (L : StdLib) (s : Utf8String) (n : Nat) (h : n ≤ L.maxSize) :
    ∃ r, s.resize L n = .ok r
      ∧ r.size = n
      ∧ (∀ i, i < min n s.size → r.mData.chars[i]? = s.mData.chars[i]?)
      ∧ (∀ i, s.size ≤ i → i < n → r.mData.chars[i]? = some 0) := by
  have hmax : ¬ L.maxSize < n := Nat.not_lt.mpr h
  unfold Utf8String.resize Utf8String.size StdString.size StdString.resize
  by_cases hn : n ≤ s.mData.chars.length
  · simp only [hmax, hn, if_true, if_false]
    refine ⟨_, rfl, by simp [hn], ?_, ?_⟩
    · intro i hi
      simp only []
      rw [List.getElem?_take_of_lt (by omega)]
    · intro i h1 h2
      omega
  · simp only [hmax, hn, if_false]
    refine ⟨_, rfl, by simp; omega, ?_, ?_⟩
    · intro i hi
      simp only []
      rw [List.getElem?_append_left (by omega)]
    · intro i h1 h2
      simp only []
      rw [List.getElem?_append_right h1, List.getElem?_replicate]
      simp
      omega

/-- C6, amended, at the string `41 42 43` resized to 5. -/
theorem resize_spec_witness :
    ∃ r, Utf8String.resize ssoLib (Utf8String.ofBytes [0x41, 0x42, 0x43]) 5 = .ok r
      ∧ r.size = 5
      ∧ (∀ i, i < min 5 (Utf8String.ofBytes [0x41, 0x42, 0x43]).size →
          r.mData.chars[i]? = (Utf8String.ofBytes [0x41, 0x42, 0x43]).mData.chars[i]?)
      ∧ (∀ i, (Utf8String.ofBytes [0x41, 0x42, 0x43]).size ≤ i → i < 5 →
          r.mData.chars[i]? = some 0) :=
  resize_spec ssoLib (Utf8String.ofBytes [0x41, 0x42, 0x43]) 5 (by simp [ssoLib])

end tlib
